import Mathlib

/-!
Verification of `src/notebooks/utils.py` (SharePoint → Azure AI Search
ingestion utilities).  Python strings are modelled as `List Char`,
Python `int` as `Int` (arbitrary precision), and fallible operations as
`Except`.  Each definition is a direct translation of the corresponding
Python source.
-/

set_option maxRecDepth 10000

/-- ASCII whitespace recognized by Python's `str.strip()` / `\s`
(space, tab, newline, carriage return, vertical tab, form feed). -/
def isPySpace (c : Char) : Bool :=
  c == ' ' || c == '\t' || c == '\n' || c == '\r' || c == '\x0b' || c == '\x0c'

/-- `str.lstrip()` with no argument: drop leading whitespace. -/
def pyLStrip (l : List Char) : List Char := l.dropWhile isPySpace

/-- `str.rstrip()` with no argument: drop trailing whitespace. -/
def pyRStrip (l : List Char) : List Char := (l.reverse.dropWhile isPySpace).reverse

/-- Python `str.strip()`: drop leading and trailing whitespace. -/
def pyStrip (l : List Char) : List Char := pyLStrip (pyRStrip l)

/-- Python slice `s[i:]` for an `Int` index `i` (negative indices count
from the end and clamp at the ends, as in Python). -/
def pySliceFrom (i : Int) (l : List Char) : List Char :=
  if i < 0 then l.drop (((l.length : Int) + i).toNat) else l.drop i.toNat

/-- The `TextChunk` dataclass.  `metadata` is modelled below by `PyVal`. -/
structure PyDictVal where
  entries : List (List Char × List Char)
deriving DecidableEq

/-- `@dataclass TextChunk` from the source (text, chunk_index,
start_char, end_char, metadata). -/
structure TextChunk where
  text : List Char
  chunk_index : Nat
  start_char : Nat
  end_char : Nat
  metadata : PyDictVal
deriving DecidableEq

/-- `TextChunker.__init__` stores `chunk_size` and `chunk_overlap`
unchanged; the source performs no validation. -/
structure TextChunker where
  chunk_size : Int
  chunk_overlap : Int
deriving DecidableEq

/-- `TextChunker.__init__(chunk_size, chunk_overlap)`: the body is just
`self.chunk_size = chunk_size; self.chunk_overlap = chunk_overlap`. -/
def TextChunker.init (chunk_size chunk_overlap : Int) : TextChunker :=
  ⟨chunk_size, chunk_overlap⟩

/-- Index of the last `'\n'` in a list, if any. -/
def lastNewlineIdx : List Char → Option Nat
  | [] => none
  | c :: rest =>
    match lastNewlineIdx rest with
    | some i => some (i + 1)
    | none => if c = '\n' then some 0 else none

/-- Does the separator regex `\n\s*\n` match starting at a `'\n'` whose
remaining input is `rest`?  The `\s*` is greedy with backtracking, so the
match extends to the last `'\n'` inside the whitespace run following the
first `'\n'`.  Returns the remainder after the match. -/
def paraSepMatch (rest : List Char) : Option (List Char) :=
  let run := rest.takeWhile isPySpace
  match lastNewlineIdx run with
  | some p => some (rest.drop (p + 1))
  | none => none

/-- Scanner for `re.split(r'\n\s*\n', text)`: `acc` is the (reversed)
segment being built; `fuel` bounds recursion (call with `fuel ≥ length`). -/
def splitParasAux : Nat → List Char → List Char → List (List Char)
  | _, acc, [] => [acc.reverse]
  | 0, acc, rest => [acc.reverse ++ rest]
  | fuel + 1, acc, c :: rest =>
    if c = '\n' then
      match paraSepMatch rest with
      | some rem => acc.reverse :: splitParasAux fuel [] rem
      | none => splitParasAux fuel (c :: acc) rest
    else splitParasAux fuel (c :: acc) rest

/-- `TextChunker._split_into_paragraphs`: split on `\n\s*\n`, then
`[p.strip() for p in paragraphs if p.strip()]`. -/
def splitIntoParagraphs (text : List Char) : List (List Char) :=
  (splitParasAux text.length [] text).filterMap fun p =>
    let s := pyStrip p
    if s = [] then none else some s

/-- Sentence delimiters of `re.split(r'[。.!?]\s*', text)`. -/
def isSentDelim (c : Char) : Bool :=
  c == '。' || c == '.' || c == '!' || c == '?'

/-- Scanner for `re.split(r'[。.!?]\s*', text)`: a delimiter char plus
the following (greedy) whitespace run separate segments. -/
def splitSentAux : Nat → List Char → List Char → List (List Char)
  | _, acc, [] => [acc.reverse]
  | 0, acc, rest => [acc.reverse ++ rest]
  | fuel + 1, acc, c :: rest =>
    if isSentDelim c then acc.reverse :: splitSentAux fuel [] (rest.dropWhile isPySpace)
    else splitSentAux fuel (c :: acc) rest

/-- `TextChunker._split_into_sentences`: split on `[。.!?]\s*`, then
`[s.strip() + '。' for s in sentences if s.strip()]`. -/
def splitIntoSentences (text : List Char) : List (List Char) :=
  (splitSentAux text.length [] text).filterMap fun p =>
    let s := pyStrip p
    if s = [] then none else some (s ++ ['。'])

/-- State of the `split_text` loop: emitted chunks, `current_chunk`,
`current_start`, `chunk_index`. -/
structure ChunkSt where
  chunks : List TextChunk
  current : List Char
  start : Nat
  idx : Nat

/-- `TextChunker._create_chunk` (with `metadata or {}`). -/
def mkChunk (text : List Char) (index start endc : Nat) (md : Option PyDictVal) :
    TextChunk :=
  { text := text, chunk_index := index, start_char := start, end_char := endc,
    metadata := match md with
      | some m => if m.entries = [] then ⟨[]⟩ else m
      | none => ⟨[]⟩ }

/-- `overlap_text = current_chunk[-self.chunk_overlap:] if
len(current_chunk) > self.chunk_overlap else current_chunk`. -/
def overlapOf (c : TextChunker) (cur : List Char) : List Char :=
  if (cur.length : Int) > c.chunk_overlap then pySliceFrom (-c.chunk_overlap) cur
  else cur

/-- One fill/flush step of `split_text`, shared by the sentence branch
(`sep = " "`) and the paragraph branch (`sep = "\n\n"`). -/
def chunkStep (c : TextChunker) (md : Option PyDictVal) (sep : List Char)
    (st : ChunkSt) (u : List Char) : ChunkSt :=
  if (st.current.length : Int) + (u.length : Int) ≤ c.chunk_size then
    { st with current := st.current ++ u ++ sep }
  else if st.current ≠ [] then
    { chunks := st.chunks ++ [mkChunk (pyStrip st.current) st.idx st.start
        (st.start + st.current.length) md],
      current := overlapOf c st.current ++ u ++ sep,
      start := st.start + ((overlapOf c st.current ++ u ++ sep).length -
        (overlapOf c st.current).length),
      idx := st.idx + 1 }
  else
    { st with current := u ++ sep }

/-- Processing of one paragraph inside `split_text`: long paragraphs are
split into sentences (space separator), short ones are appended whole
(blank-line separator). -/
def processPara (c : TextChunker) (md : Option PyDictVal) (st : ChunkSt)
    (para : List Char) : ChunkSt :=
  if (para.length : Int) > c.chunk_size then
    (splitIntoSentences para).foldl (chunkStep c md [' ']) st
  else chunkStep c md ['\n', '\n'] st para

/-- The trailing block of `split_text`: emit the final chunk when the
remaining buffer has non-whitespace content. -/
def finishChunks (md : Option PyDictVal) (st : ChunkSt) : List TextChunk :=
  if pyStrip st.current ≠ [] then
    st.chunks ++ [mkChunk (pyStrip st.current) st.idx st.start
      (st.start + st.current.length) md]
  else st.chunks

/-- `TextChunker.split_text`. -/
def TextChunker.split_text (c : TextChunker) (text : List Char)
    (md : Option PyDictVal) : List TextChunk :=
  if text = [] ∨ pyStrip text = [] then []
  else finishChunks md
    ((splitIntoParagraphs text).foldl (processPara c md) ⟨[], [], 0, 0⟩)

/-! ## Identifier generator (`create_document_id`) -/

/-- Characters kept by `re.sub(r'[^a-zA-Z0-9\-_]', '', text)` and allowed
by the Azure AI Search key alphabet. -/
def isIdChar (c : Char) : Bool :=
  c.isAlpha || c.isDigit || c == '-' || c == '_'

/-- `str.rstrip('-_')`: drop trailing hyphens/underscores. -/
def rstripHU (l : List Char) : List Char :=
  (l.reverse.dropWhile (fun c => c == '-' || c == '_')).reverse

/-- Step 1 of `sanitize_id_part`: `re.sub(r'[^a-zA-Z0-9\-_]', '', text)`. -/
def san1 (text : List Char) : List Char := text.filter isIdChar

/-- Step 2: prepend `'doc'` when the first character is not alphabetic. -/
def san2 (l : List Char) : List Char :=
  match l with
  | [] => l
  | c :: _ => if ¬ c.isAlpha then 'd' :: 'o' :: 'c' :: l else l

/-- Step 3: substitute `'unknown'` when empty. -/
def san3 (l : List Char) : List Char :=
  if l = [] then "unknown".toList else l

/-- Step 4: truncate to `max_length`. -/
def san4 (max_length : Nat) (l : List Char) : List Char :=
  if max_length < l.length then l.take max_length else l

/-- `sanitize_id_part` (inner function of `create_document_id`): filter,
prefix, default, truncate, `rstrip('-_')`, default again. -/
def sanitize_id_part (text : List Char) (max_length : Nat) : List Char :=
  if rstripHU (san4 max_length (san3 (san2 (san1 text)))) = [] then "unknown".toList
  else rstripHU (san4 max_length (san3 (san2 (san1 text))))

/-- Decimal digits of a natural number (fuel-based; call with `fuel > 0`,
`fuel ≥ number of digits`). -/
def natDigitsAux : Nat → Nat → List Char
  | 0, _ => []
  | fuel + 1, n =>
    if n < 10 then [Char.ofNat (48 + n)]
    else natDigitsAux fuel (n / 10) ++ [Char.ofNat (48 + n % 10)]

/-- Python `str(n)` for an `int`. -/
def intToString (z : Int) : List Char :=
  if z < 0 then '-' :: natDigitsAux z.natAbs z.natAbs
  else natDigitsAux (z.toNat + 1) z.toNat

/-- UTF-8 encoding of one character (as in `str.encode()`). -/
def utf8EncodeChar (c : Char) : List Nat :=
  let n := c.toNat
  if n < 0x80 then [n]
  else if n < 0x800 then [0xC0 + n / 64, 0x80 + n % 64]
  else if n < 0x10000 then [0xE0 + n / 4096, 0x80 + n / 64 % 64, 0x80 + n % 64]
  else [0xF0 + n / 262144, 0x80 + n / 4096 % 64, 0x80 + n / 64 % 64, 0x80 + n % 64]

/-- `str.encode()`: UTF-8 bytes of a string. -/
def utf8Encode (l : List Char) : List Nat := l.flatMap utf8EncodeChar

/-! MD5 (`hashlib.md5`), over byte lists, words as `Nat` mod `2^32`. -/

/-- Per-round shift amounts of MD5. -/
def md5S : List Nat :=
  [7, 12, 17, 22, 7, 12, 17, 22, 7, 12, 17, 22, 7, 12, 17, 22,
   5, 9, 14, 20, 5, 9, 14, 20, 5, 9, 14, 20, 5, 9, 14, 20,
   4, 11, 16, 23, 4, 11, 16, 23, 4, 11, 16, 23, 4, 11, 16, 23,
   6, 10, 15, 21, 6, 10, 15, 21, 6, 10, 15, 21, 6, 10, 15, 21]

/-- Per-round additive constants of MD5 (`⌊2³² · |sin(i+1)|⌋`). -/
def md5K : List Nat :=
  [0xd76aa478, 0xe8c7b756, 0x242070db, 0xc1bdceee,
   0xf57c0faf, 0x4787c62a, 0xa8304613, 0xfd469501,
   0x698098d8, 0x8b44f7af, 0xffff5bb1, 0x895cd7be,
   0x6b901122, 0xfd987193, 0xa679438e, 0x49b40821,
   0xf61e2562, 0xc040b340, 0x265e5a51, 0xe9b6c7aa,
   0xd62f105d, 0x02441453, 0xd8a1e681, 0xe7d3fbc8,
   0x21e1cde6, 0xc33707d6, 0xf4d50d87, 0x455a14ed,
   0xa9e3e905, 0xfcefa3f8, 0x676f02d9, 0x8d2a4c8a,
   0xfffa3942, 0x8771f681, 0x6d9d6122, 0xfde5380c,
   0xa4beea44, 0x4bdecfa9, 0xf6bb4b60, 0xbebfbc70,
   0x289b7ec6, 0xeaa127fa, 0xd4ef3085, 0x04881d05,
   0xd9d4d039, 0xe6db99e5, 0x1fa27cf8, 0xc4ac5665,
   0xf4292244, 0x432aff97, 0xab9423a7, 0xfc93a039,
   0x655b59c3, 0x8f0ccc92, 0xffeff47d, 0x85845dd1,
   0x6fa87e4f, 0xfe2ce6e0, 0xa3014314, 0x4e0811a1,
   0xf7537e82, 0xbd3af235, 0x2ad7d2bb, 0xeb86d391]

/-- 32-bit left rotation. -/
def rotl32 (w s : Nat) : Nat :=
  ((w <<< s) ||| (w >>> (32 - s))) % 4294967296

/-- Bitwise complement in 32 bits. -/
def not32 (w : Nat) : Nat := w ^^^ 0xffffffff

/-- MD5 padding: append `0x80`, zeros to 56 mod 64, then the 64-bit
little-endian bit length. -/
def md5Pad (msg : List Nat) : List Nat :=
  let lenBits := (msg.length * 8) % (2 ^ 64)
  let zeros := (55 + 64 - msg.length % 64) % 64
  msg ++ [0x80] ++ List.replicate zeros 0 ++
    (List.range 8).map (fun i => lenBits / (2 ^ (8 * i)) % 256)

/-- Split a byte list into 16-word little-endian blocks of 64 bytes. -/
def md5Words (block : List Nat) : List Nat :=
  (List.range 16).map fun j =>
    block.getD (4 * j) 0 + block.getD (4 * j + 1) 0 * 256 +
      block.getD (4 * j + 2) 0 * 65536 + block.getD (4 * j + 3) 0 * 16777216

/-- Byte blocks of length 64 (fuel-based). -/
def chunks64 : Nat → List Nat → List (List Nat)
  | _, [] => []
  | 0, l => [l]
  | fuel + 1, l => l.take 64 :: chunks64 fuel (l.drop 64)

/-- One MD5 round `i` on state `(a,b,c,d)` with message words `m`. -/
def md5Round (m : List Nat) (st : Nat × Nat × Nat × Nat) (i : Nat) :
    Nat × Nat × Nat × Nat :=
  let a := st.1; let b := st.2.1; let c := st.2.2.1; let d := st.2.2.2
  let f :=
    if i < 16 then (b &&& c) ||| (not32 b &&& d)
    else if i < 32 then (d &&& b) ||| (not32 d &&& c)
    else if i < 48 then b ^^^ c ^^^ d
    else c ^^^ (b ||| not32 d)
  let g :=
    if i < 16 then i
    else if i < 32 then (5 * i + 1) % 16
    else if i < 48 then (3 * i + 5) % 16
    else (7 * i) % 16
  let tmp := (a + f + md5K.getD i 0 + m.getD g 0) % 4294967296
  let b' := (b + rotl32 tmp (md5S.getD i 0)) % 4294967296
  (d, b', b, c)

/-- Process one 64-byte block. -/
def md5Block (st : Nat × Nat × Nat × Nat) (block : List Nat) :
    Nat × Nat × Nat × Nat :=
  let m := md5Words block
  let r := (List.range 64).foldl (md5Round m) st
  ((st.1 + r.1) % 4294967296, (st.2.1 + r.2.1) % 4294967296,
   (st.2.2.1 + r.2.2.1) % 4294967296, (st.2.2.2 + r.2.2.2) % 4294967296)

/-- Little-endian bytes of a 32-bit word. -/
def wordLEBytes (w : Nat) : List Nat :=
  [w % 256, w / 256 % 256, w / 65536 % 256, w / 16777216 % 256]

/-- MD5 digest (16 bytes) of a byte list. -/
def md5Bytes (msg : List Nat) : List Nat :=
  let padded := md5Pad msg
  let st := (chunks64 (padded.length + 1) padded).foldl md5Block
    (0x67452301, 0xefcdab89, 0x98badcfe, 0x10325476)
  wordLEBytes st.1 ++ wordLEBytes st.2.1 ++ wordLEBytes st.2.2.1 ++
    wordLEBytes st.2.2.2

/-- Lowercase hex digit of a value `< 16`. -/
def hexChar (n : Nat) : Char :=
  if n < 10 then Char.ofNat (48 + n) else Char.ofNat (97 + (n - 10) % 6)

/-- Lowercase hex string of a byte list (`hexdigest()`). -/
def bytesToHex (bs : List Nat) : List Char :=
  bs.flatMap fun b => [hexChar (b / 16 % 16), hexChar (b % 16)]

/-- `hashlib.md5(s.encode()).hexdigest()[:8]`. -/
def md5Hex8 (l : List Char) : List Char :=
  (bytesToHex (md5Bytes (utf8Encode l))).take 8

/-- The id before the length check: sanitized parts joined by `_`, with
the chunk index appended when present. -/
def docIdRaw (site_id drive_id item_id : List Char) (chunk_index : Option Int) :
    List Char :=
  let safe_site := sanitize_id_part site_id 20
  let safe_drive := sanitize_id_part drive_id 20
  let safe_item := sanitize_id_part item_id 40
  match chunk_index with
  | some z => safe_site ++ ('_' :: (safe_drive ++ ('_' :: (safe_item ++
      ('_' :: intToString z)))))
  | none => safe_site ++ ('_' :: (safe_drive ++ ('_' :: safe_item)))

/-- The shortened id used when the raw id exceeds 1024 characters:
`{site[:10]}_{drive[:10]}_{md5(raw)[:8]}[_{chunk_index}]`. -/
def docIdShort (site_id drive_id item_id : List Char) (chunk_index : Option Int) :
    List Char :=
  let safe_site := sanitize_id_part site_id 20
  let safe_drive := sanitize_id_part drive_id 20
  let hash_suffix := md5Hex8 (docIdRaw site_id drive_id item_id chunk_index)
  match chunk_index with
  | some z => safe_site.take 10 ++ ('_' :: (safe_drive.take 10 ++
      ('_' :: (hash_suffix ++ ('_' :: intToString z)))))
  | none => safe_site.take 10 ++ ('_' :: (safe_drive.take 10 ++
      ('_' :: hash_suffix)))

/-- `create_document_id`. -/
def create_document_id (site_id drive_id item_id : List Char)
    (chunk_index : Option Int) : List Char :=
  if 1024 < (docIdRaw site_id drive_id item_id chunk_index).length then
    docIdShort site_id drive_id item_id chunk_index
  else docIdRaw site_id drive_id item_id chunk_index

/-- `^[A-Za-z][A-Za-z0-9_-]*$` as a Boolean predicate. -/
def matchesIdPattern (l : List Char) : Bool :=
  match l with
  | [] => false
  | c :: cs => c.isAlpha && (c :: cs).all isIdChar

/-! ## ACL extractor (`extract_acl_from_permissions`)

Python values reachable from a Graph-API permissions payload are
modelled by `PyVal`; `Except PyErr` models the exceptions the
interpreter raises on malformed shapes. -/

inductive PyVal where
  | none
  | str (s : List Char)
  | int (n : Int)
  | list (xs : List PyVal)
  | dict (kvs : List (List Char × PyVal))

/-- The exceptions relevant to `extract_acl_from_permissions`. -/
inductive PyErr where
  | attributeError
  | typeError
  | keyError
deriving DecidableEq

/-- Python truthiness: `None`, `0`, `""`, `[]`, `{}` are falsy. -/
def pyTruthy : PyVal → Bool
  | .none => false
  | .str s => !s.isEmpty
  | .int n => n != 0
  | .list xs => !xs.isEmpty
  | .dict kvs => !kvs.isEmpty

mutual
/-- Python `==` on modelled values (dicts compared entry-wise; Python
dict order-insensitivity is irrelevant for the string identifiers the
extractor collects). -/
def pyEq : PyVal → PyVal → Bool
  | .none, .none => true
  | .str a, .str b => a == b
  | .int a, .int b => a == b
  | .list xs, .list ys => pyEqL xs ys
  | .dict a, .dict b => pyEqD a b
  | _, _ => false
def pyEqL : List PyVal → List PyVal → Bool
  | [], [] => true
  | x :: xs, y :: ys => pyEq x y && pyEqL xs ys
  | _, _ => false
def pyEqD : List (List Char × PyVal) → List (List Char × PyVal) → Bool
  | [], [] => true
  | (k, v) :: xs, (k2, v2) :: ys => k == k2 && pyEq v v2 && pyEqD xs ys
  | _, _ => false
end

/-- `dict.get(k)` on a known dict: the value, or `None` when absent. -/
def pyDictGet (kvs : List (List Char × PyVal)) (k : List Char) : PyVal :=
  match kvs.find? (·.1 == k) with
  | some kv => kv.2
  | Option.none => .none

/-- `dict.get(k, default)` on a known dict. -/
def pyDictGetD (kvs : List (List Char × PyVal)) (k : List Char) (d : PyVal) :
    PyVal :=
  match kvs.find? (·.1 == k) with
  | some kv => kv.2
  | Option.none => d

/-- `v.get(k)`: `AttributeError` unless `v` is a dict. -/
def pyGetE (v : PyVal) (k : List Char) : Except PyErr PyVal :=
  match v with
  | .dict kvs => .ok (pyDictGet kvs k)
  | _ => .error .attributeError

/-- Does `pre` begin `s`? -/
def beginsWith : List Char → List Char → Bool
  | [], _ => true
  | _ :: _, [] => false
  | a :: as, b :: bs => a == b && beginsWith as bs

/-- Is `k` a contiguous substring of `s`? -/
def listHasSub (k s : List Char) : Bool :=
  match s with
  | [] => k.isEmpty
  | _ :: t => beginsWith k s || listHasSub k t

/-- Python `k in v` (string key): key lookup for dicts, substring test
for strings, membership (`==`) for lists; `TypeError` otherwise. -/
def pyContains (k : List Char) (v : PyVal) : Except PyErr Bool :=
  match v with
  | .dict kvs => .ok (kvs.any (·.1 == k))
  | .str s => .ok (listHasSub k s)
  | .list xs => .ok (xs.any (fun e => pyEq e (.str k)))
  | _ => .error .typeError

/-- Python `v[k]` (string key): dict indexing (`KeyError` when absent),
`TypeError` for every other type. -/
def pyIndexE (v : PyVal) (k : List Char) : Except PyErr PyVal :=
  match v with
  | .dict kvs =>
    match kvs.find? (·.1 == k) with
    | some kv => .ok kv.2
    | Option.none => .error .keyError
  | _ => .error .typeError

/-- Python iteration `for x in v`: list elements, string characters, or
dict keys; `TypeError` for non-iterables. -/
def pyIterate (v : PyVal) : Except PyErr (List PyVal) :=
  match v with
  | .list xs => .ok xs
  | .str s => .ok (s.map (fun c => .str [c]))
  | .dict kvs => .ok (kvs.map (fun kv => .str kv.1))
  | _ => .error .typeError

/-- `sub = container.get(key); if sub and "id" in sub:
out.append(sub["id"])` — the user/group collection pattern of the
source, applied to `granted` and to each identity record. -/
def collectSub (sub : PyVal) (out : List PyVal) : Except PyErr (List PyVal) :=
  if pyTruthy sub then
    match pyContains ['i', 'd'] sub with
    | .error e => .error e
    | .ok c =>
      if c then
        match pyIndexE sub ['i', 'd'] with
        | .error e => .error e
        | .ok idv => .ok (out ++ [idv])
      else .ok out
  else .ok out

def collectId (container : PyVal) (key : List Char) (out : List PyVal) :
    Except PyErr (List PyVal) :=
  match pyGetE container key with
  | .error e => .error e
  | .ok sub => collectSub sub out

/-- The loop body of `extract_acl_from_permissions` over the
`grantedToIdentitiesV2` / `grantedToIdentities` list. -/
def goIdents : List PyVal → List PyVal × List PyVal →
    Except PyErr (List PyVal × List PyVal)
  | [], acc => .ok acc
  | idv :: rest, acc =>
    match collectId idv "user".toList acc.1 with
    | .error e => .error e
    | .ok us =>
      match collectId idv "group".toList acc.2 with
      | .error e => .error e
      | .ok gs => goIdents rest (us, gs)

/-- `if granted:` block of the loop body: collect the user and group
identifiers of the selected "granted to" sub-record. -/
def grantedCollect (granted : PyVal) (acc : List PyVal × List PyVal) :
    Except PyErr (List PyVal × List PyVal) :=
  if pyTruthy granted then
    match collectId granted "user".toList acc.1 with
    | .error e => .error e
    | .ok us =>
      match collectId granted "group".toList acc.2 with
      | .error e => .error e
      | .ok gs => .ok (us, gs)
  else .ok acc

/-- One iteration of the `for perm in permissions` loop. -/
def procPerm (acc : List PyVal × List PyVal) (perm : PyVal) :
    Except PyErr (List PyVal × List PyVal) :=
  match pyGetE perm "grantedToV2".toList with
  | .error e => .error e
  | .ok gV2 =>
    match (if pyTruthy gV2 then .ok gV2 else pyGetE perm "grantedTo".toList :
        Except PyErr PyVal) with
    | .error e => .error e
    | .ok granted =>
      match grantedCollect granted acc with
      | .error e => .error e
      | .ok acc1 =>
        match pyGetE perm "grantedToIdentitiesV2".toList with
        | .error e => .error e
        | .ok idsV2 =>
          match (if pyTruthy idsV2 then .ok idsV2
            else
              match perm with
              | .dict kvs =>
                .ok (pyDictGetD kvs "grantedToIdentities".toList (.list []))
              | _ => .error .attributeError : Except PyErr PyVal) with
          | .error e => .error e
          | .ok identities =>
            match pyIterate identities with
            | .error e => .error e
            | .ok idList => goIdents idList acc1

/-- The `for perm in permissions` loop. -/
def goPerms : List PyVal → List PyVal × List PyVal →
    Except PyErr (List PyVal × List PyVal)
  | [], acc => .ok acc
  | p :: rest, acc =>
    match procPerm acc p with
    | .error e => .error e
    | .ok acc2 => goPerms rest acc2

/-- Python hashability of the modelled values: `None`, strings and ints
hash; lists and dicts make `set(...)` raise `TypeError`. -/
def pyHashable : PyVal → Bool
  | .list _ => false
  | .dict _ => false
  | _ => true

/-- Deduplication by `==` over hashable values (modelled as keeping
first occurrences; Python guarantees no ordering for `set`). -/
def dedupPy (l : List PyVal) : List PyVal :=
  l.foldl (fun acc x => if acc.any (fun a => pyEq a x) then acc else acc ++ [x]) []

/-- `list(set(xs))`: raises `TypeError` when an element is unhashable,
otherwise deduplicates by `==`. -/
def dedupPyE (l : List PyVal) : Except PyErr (List PyVal) :=
  if l.all pyHashable then .ok (dedupPy l) else .error .typeError

/-- `extract_acl_from_permissions`. -/
def extract_acl_from_permissions (permissions : PyVal) :
    Except PyErr (List PyVal × List PyVal) :=
  match pyIterate permissions with
  | .error e => .error e
  | .ok perms =>
    match goPerms perms ([], []) with
    | .error e => .error e
    | .ok r =>
      match dedupPyE r.1 with
      | .error e => .error e
      | .ok us =>
        match dedupPyE r.2 with
        | .error e => .error e
        | .ok gs => .ok (us, gs)

/-- Sufficient well-formedness of a `user` / `group` sub-value: a
mapping whose `id` value, when present, is hashable (so the final
`set(...)` cannot raise), or anything falsy (which the source skips). -/
def subjectOk (v : PyVal) : Bool :=
  match v with
  | .dict kvs =>
    match kvs.find? (·.1 == ['i', 'd']) with
    | some kv => pyHashable kv.2
    | Option.none => true
  | v => !pyTruthy v

/-- Sufficient well-formedness of the selected "granted to" sub-record. -/
def grantedPartOk (g : PyVal) : Bool :=
  match g with
  | .dict kvs => subjectOk (pyDictGet kvs "user".toList) &&
      subjectOk (pyDictGet kvs "group".toList)
  | g => !pyTruthy g

/-- Sufficient well-formedness of one granted-to-identities entry. -/
def identityOk (v : PyVal) : Bool :=
  match v with
  | .dict kvs => subjectOk (pyDictGet kvs "user".toList) &&
      subjectOk (pyDictGet kvs "group".toList)
  | _ => false

/-- Sufficient well-formedness of a permission record: a mapping whose
selected granted-to value is a mapping (or falsy) with mapping-or-falsy
`user`/`group` sub-values carrying hashable `id` values, and whose
selected identities value is a list of such mappings. -/
def recordOk (p : PyVal) : Bool :=
  match p with
  | .dict kvs =>
    grantedPartOk (if pyTruthy (pyDictGet kvs "grantedToV2".toList)
      then pyDictGet kvs "grantedToV2".toList
      else pyDictGet kvs "grantedTo".toList) &&
    (match (if pyTruthy (pyDictGet kvs "grantedToIdentitiesV2".toList)
        then pyDictGet kvs "grantedToIdentitiesV2".toList
        else pyDictGetD kvs "grantedToIdentities".toList (.list [])) with
     | .list l => l.all identityOk
     | _ => false)
  | _ => false

/-! ## Helper predicates used by the theorems -/

/-- `s` occurs contiguously (verbatim) inside `l`. -/
def SubSeg (s l : List Char) : Prop := ∃ a b, a ++ s ++ b = l

/-- The invariant carried through the `split_text` loop for a unit `s`:
`s` occurs verbatim either in an already-emitted chunk or in the
`current_chunk` buffer. -/
def holdsChunk (s : List Char) (st : ChunkSt) : Prop :=
  (∃ ch ∈ st.chunks, SubSeg s ch.text) ∨ SubSeg s st.current

/-- `s` starts with a non-whitespace character. -/
def headSolid (s : List Char) : Prop :=
  ∃ c t, s = c :: t ∧ isPySpace c = false

/-- `s` ends with a non-whitespace character. -/
def lastSolid (s : List Char) : Prop :=
  ∃ t c, s = t ++ [c] ∧ isPySpace c = false

/-- The emitted chunk indices are exactly `0, …, idx-1`. -/
def idxInv (st : ChunkSt) : Prop :=
  st.chunks.map (·.chunk_index) = List.range st.idx

/-- Length of the decimal rendering of an optional chunk index. -/
def ciDigitsLen : Option Int → Nat
  | Option.none => 0
  | some z => (intToString z).length

/-! ## Generic list lemmas -/

theorem mem_of_mem_dropWhileP {α} (p : α → Bool) :
    ∀ {l : List α} {c : α}, c ∈ l.dropWhile p → c ∈ l := by
  intro l
  induction l with
  | nil => intro c h; simp [List.dropWhile_nil] at h
  | cons x xs ih =>
    intro c h
    rw [List.dropWhile_cons] at h
    by_cases hx : p x
    · simp [hx] at h; exact List.mem_cons_of_mem x (ih h)
    · simp [hx] at h; simpa using h

theorem mem_dropWhile_of_mem {α} (p : α → Bool) :
    ∀ {l : List α} {c : α}, c ∈ l → p c = false → c ∈ l.dropWhile p := by
  intro l
  induction l with
  | nil => intro c h _; simp at h
  | cons x xs ih =>
    intro c h hc
    rw [List.dropWhile_cons]
    rcases List.mem_cons.mp h with rfl | hmem
    · simp [hc]
    · by_cases hx : p x
      · simp [hx]; exact ih hmem hc
      · simp [hx]; exact Or.inr hmem

theorem head_dropWhile_false {α} (p : α → Bool) :
    ∀ {l : List α} {c : α} {t : List α}, List.dropWhile p l = c :: t → p c = false := by
  intro l
  induction l with
  | nil => intro c t h; simp [List.dropWhile_nil] at h
  | cons x xs ih =>
    intro c t h
    rw [List.dropWhile_cons] at h
    by_cases hx : p x
    · simp [hx] at h; exact ih h
    · simp [hx] at h; rw [← h.1]; simpa using hx

/-! ## Lemmas about Python strip -/

theorem mem_pyStrip_of_mem {l : List Char} {c : Char}
    (h : c ∈ l) (hc : isPySpace c = false) : c ∈ pyStrip l := by
  unfold pyStrip pyLStrip pyRStrip
  apply mem_dropWhile_of_mem _ _ hc
  rw [List.mem_reverse]
  apply mem_dropWhile_of_mem _ _ hc
  rwa [List.mem_reverse]

theorem pyStrip_subset {l : List Char} {c : Char} (h : c ∈ pyStrip l) : c ∈ l := by
  unfold pyStrip pyLStrip pyRStrip at h
  have h1 := mem_of_mem_dropWhileP _ h
  rw [List.mem_reverse] at h1
  have h2 := mem_of_mem_dropWhileP _ h1
  rwa [List.mem_reverse] at h2

theorem headSolid_pyStrip {l : List Char} (h : pyStrip l ≠ []) :
    headSolid (pyStrip l) := by
  rcases hcons : pyStrip l with _ | ⟨c, t⟩
  · exact absurd hcons h
  · refine ⟨c, t, rfl, ?_⟩
    unfold pyStrip pyLStrip at hcons
    exact head_dropWhile_false _ hcons

/-! ## SubSeg lemmas -/

theorem subSeg_refl (s : List Char) : SubSeg s s := ⟨[], [], by simp⟩

theorem subSeg_length {s l : List Char} (h : SubSeg s l) : s.length ≤ l.length := by
  rcases h with ⟨a, b, rfl⟩
  simp
  omega

theorem subSeg_ne_nil {s l : List Char} (hs : s ≠ []) (h : SubSeg s l) : l ≠ [] := by
  rcases h with ⟨a, b, rfl⟩
  simp [hs]

theorem subSeg_append_right {s l : List Char} (t : List Char)
    (h : SubSeg s l) : SubSeg s (l ++ t) := by
  rcases h with ⟨a, b, rfl⟩
  exact ⟨a, b ++ t, by simp⟩

theorem subSeg_mid (a s b : List Char) : SubSeg s (a ++ s ++ b) := ⟨a, b, rfl⟩

theorem subSeg_reverse {s l : List Char} (h : SubSeg s l) :
    SubSeg s.reverse l.reverse := by
  rcases h with ⟨a, b, rfl⟩
  exact ⟨b.reverse, a.reverse, by simp⟩

theorem subSeg_dropWhile {s : List Char} (hh : headSolid s) :
    ∀ {l : List Char}, SubSeg s l → SubSeg s (l.dropWhile isPySpace) := by
  rcases hh with ⟨c, t, rfl, hc⟩
  intro l hl
  rcases hl with ⟨a, b, rfl⟩
  induction a with
  | nil =>
    simp only [List.nil_append, List.cons_append, List.dropWhile_cons, hc]
    simp only [Bool.false_eq_true, if_false]
    exact subSeg_mid [] _ b
  | cons x a' ih =>
    simp only [List.cons_append, List.append_assoc]
    rw [List.dropWhile_cons]
    simp only [List.append_assoc] at ih
    by_cases hx : isPySpace x
    · simp only [hx, if_true]; exact ih
    · simp only [hx, Bool.false_eq_true, if_false]
      exact ⟨x :: a', b, by simp⟩

theorem headSolid_reverse_of_lastSolid {s : List Char} (h : lastSolid s) :
    headSolid s.reverse := by
  rcases h with ⟨t, c, rfl, hc⟩
  exact ⟨c, t.reverse, by simp, hc⟩

theorem subSeg_pyRStrip {s : List Char} (hl : lastSolid s) :
    ∀ {l : List Char}, SubSeg s l → SubSeg s (pyRStrip l) := by
  intro l h
  have h1 := subSeg_dropWhile (headSolid_reverse_of_lastSolid hl) (subSeg_reverse h)
  have h2 := subSeg_reverse h1
  rw [List.reverse_reverse] at h2
  exact h2

theorem subSeg_pyStrip {s : List Char} (hh : headSolid s) (hl : lastSolid s)
    {l : List Char} (h : SubSeg s l) : SubSeg s (pyStrip l) :=
  subSeg_dropWhile hh (subSeg_pyRStrip hl h)

/-! ## Shape of paragraph / sentence units -/

theorem splitParasAux_chars :
    ∀ (fuel : Nat) (acc rest piece : List Char),
      piece ∈ splitParasAux fuel acc rest →
      ∀ c ∈ piece, c ∈ acc ∨ c ∈ rest := by
  intro fuel
  induction fuel with
  | zero =>
    intro acc rest piece hp c hc
    cases rest with
    | nil =>
      simp [splitParasAux] at hp
      subst hp
      exact Or.inl (List.mem_reverse.mp hc)
    | cons r rs =>
      simp [splitParasAux] at hp
      subst hp
      rcases List.mem_append.mp hc with h | h
      · exact Or.inl (List.mem_reverse.mp h)
      · exact Or.inr h
  | succ n ih =>
    intro acc rest piece hp c hc
    cases rest with
    | nil =>
      simp [splitParasAux] at hp
      subst hp
      exact Or.inl (List.mem_reverse.mp hc)
    | cons r rs =>
      rw [splitParasAux] at hp
      by_cases hr : r = '\n'
      · simp only [hr, if_true] at hp
        cases hsep : paraSepMatch rs with
        | none =>
          rw [hsep] at hp
          rcases ih _ _ _ hp c hc with h | h
          · rcases List.mem_cons.mp h with rfl | h2
            · exact Or.inr (by simp [hr])
            · exact Or.inl h2
          · exact Or.inr (List.mem_cons_of_mem _ h)
        | some rem =>
          rw [hsep] at hp
          rcases List.mem_cons.mp hp with rfl | hp2
          · exact Or.inl (List.mem_reverse.mp hc)
          · rcases ih _ _ _ hp2 c hc with h | h
            · simp at h
            · have hsubrs : c ∈ rs := by
                simp only [paraSepMatch] at hsep
                rcases h2 : lastNewlineIdx (List.takeWhile isPySpace rs) with _ | pp
                · rw [h2] at hsep; simp at hsep
                · rw [h2] at hsep
                  simp only [Option.some.injEq] at hsep
                  rw [← hsep] at h
                  exact List.drop_subset _ _ h
              exact Or.inr (List.mem_cons_of_mem _ hsubrs)
      · simp only [hr, if_false] at hp
        rcases ih _ _ _ hp c hc with h | h
        · rcases List.mem_cons.mp h with rfl | h2
          · exact Or.inr (List.mem_cons_self _ _)
          · exact Or.inl h2
        · exact Or.inr (List.mem_cons_of_mem _ h)

theorem para_chars {text p : List Char} (hp : p ∈ splitIntoParagraphs text) :
    ∀ c ∈ p, c ∈ text := by
  intro c hc
  unfold splitIntoParagraphs at hp
  rcases List.mem_filterMap.mp hp with ⟨q, hq, hsome⟩
  by_cases hnil : pyStrip q = []
  · simp [hnil] at hsome
  · simp [hnil] at hsome
    subst hsome
    have := pyStrip_subset hc
    rcases splitParasAux_chars _ _ _ _ hq c this with h | h
    · simp at h
    · exact h

theorem para_shape {text p : List Char} (hp : p ∈ splitIntoParagraphs text) :
    p ≠ [] ∧ headSolid p := by
  unfold splitIntoParagraphs at hp
  rcases List.mem_filterMap.mp hp with ⟨q, _, hsome⟩
  by_cases hnil : pyStrip q = []
  · simp [hnil] at hsome
  · simp [hnil] at hsome
    subst hsome
    exact ⟨hnil, headSolid_pyStrip hnil⟩

theorem sentence_shape {p s : List Char} (hs : s ∈ splitIntoSentences p) :
    s ≠ [] ∧ headSolid s ∧ lastSolid s := by
  unfold splitIntoSentences at hs
  rcases List.mem_filterMap.mp hs with ⟨q, _, hsome⟩
  by_cases hnil : pyStrip q = []
  · simp [hnil] at hsome
  · simp [hnil] at hsome
    subst hsome
    refine ⟨by simp, ?_, ⟨pyStrip q, '。', rfl, by decide⟩⟩
    rcases headSolid_pyStrip hnil with ⟨c, t, heq, hc⟩
    exact ⟨c, t ++ ['。'], by rw [heq]; simp, hc⟩

/-! ## Invariants of the split_text loop -/

theorem chunkStep_pres {s : List Char} (hh : headSolid s) (hl : lastSolid s)
    (c : TextChunker) (md : Option PyDictVal) (sep : List Char)
    (st : ChunkSt) (u : List Char) (hst : holdsChunk s st) :
    holdsChunk s (chunkStep c md sep st u) := by
  have hsne : s ≠ [] := by rcases hh with ⟨c0, t0, rfl, _⟩; simp
  unfold chunkStep
  by_cases h1 : (st.current.length : Int) + (u.length : Int) ≤ c.chunk_size
  · rw [if_pos h1]
    rcases hst with ⟨ch, hch, hsub⟩ | hsub
    · exact Or.inl ⟨ch, hch, hsub⟩
    · exact Or.inr (subSeg_append_right _ (subSeg_append_right _ hsub))
  · rw [if_neg h1]
    by_cases h2 : st.current ≠ []
    · rw [if_pos h2]
      rcases hst with ⟨ch, hch, hsub⟩ | hsub
      · exact Or.inl ⟨ch, List.mem_append_left _ hch, hsub⟩
      · refine Or.inl ⟨_, List.mem_append_right _ (List.mem_singleton_self _), ?_⟩
        show SubSeg s (pyStrip st.current)
        exact subSeg_pyStrip hh hl hsub
    · rw [if_neg h2]
      rcases hst with ⟨ch, hch, hsub⟩ | hsub
      · exact Or.inl ⟨ch, hch, hsub⟩
      · simp only [ne_eq, not_not] at h2
        rw [h2] at hsub
        exact absurd (subSeg_ne_nil hsne hsub) (by simp)

theorem chunkStep_estab {s : List Char} (c : TextChunker)
    (md : Option PyDictVal) (sep : List Char) (st : ChunkSt)
    (hlong : (s.length : Int) > c.chunk_size) :
    holdsChunk s (chunkStep c md sep st s) := by
  unfold chunkStep
  have h1 : ¬ ((st.current.length : Int) + (s.length : Int) ≤ c.chunk_size) := by
    have h0 : (0 : Int) ≤ (st.current.length : Int) := Int.natCast_nonneg _
    omega
  rw [if_neg h1]
  by_cases h2 : st.current ≠ []
  · rw [if_pos h2]
    exact Or.inr (subSeg_mid _ _ _)
  · rw [if_neg h2]
    exact Or.inr (subSeg_mid [] _ _)

theorem foldl_chunkStep_pres {s : List Char} (hh : headSolid s) (hl : lastSolid s)
    (c : TextChunker) (md : Option PyDictVal) (sep : List Char) :
    ∀ (l : List (List Char)) (st : ChunkSt), holdsChunk s st →
      holdsChunk s (l.foldl (chunkStep c md sep) st) := by
  intro l
  induction l with
  | nil => intro st h; exact h
  | cons u rest ih =>
    intro st h
    exact ih _ (chunkStep_pres hh hl c md sep st u h)

theorem processPara_pres {s : List Char} (hh : headSolid s) (hl : lastSolid s)
    (c : TextChunker) (md : Option PyDictVal) (st : ChunkSt) (q : List Char)
    (hst : holdsChunk s st) : holdsChunk s (processPara c md st q) := by
  unfold processPara
  by_cases hq : (q.length : Int) > c.chunk_size
  · simp only [hq, if_true]
    exact foldl_chunkStep_pres hh hl c md _ _ st hst
  · simp only [hq, if_false]
    exact chunkStep_pres hh hl c md _ st q hst

theorem foldl_processPara_pres {s : List Char} (hh : headSolid s) (hl : lastSolid s)
    (c : TextChunker) (md : Option PyDictVal) :
    ∀ (l : List (List Char)) (st : ChunkSt), holdsChunk s st →
      holdsChunk s (l.foldl (processPara c md) st) := by
  intro l
  induction l with
  | nil => intro st h; exact h
  | cons q rest ih =>
    intro st h
    exact ih _ (processPara_pres hh hl c md st q h)

theorem finish_holds {s : List Char} (hh : headSolid s) (hl : lastSolid s)
    (md : Option PyDictVal) (st : ChunkSt) (hst : holdsChunk s st) :
    ∃ ch ∈ finishChunks md st, SubSeg s ch.text := by
  have hsne : s ≠ [] := by rcases hh with ⟨c0, t0, rfl, _⟩; simp
  unfold finishChunks
  rcases hst with ⟨ch, hch, hsub⟩ | hsub
  · by_cases hfin : pyStrip st.current ≠ []
    · rw [if_pos hfin]
      exact ⟨ch, List.mem_append_left _ hch, hsub⟩
    · rw [if_neg hfin]
      exact ⟨ch, hch, hsub⟩
  · have hsubstrip := subSeg_pyStrip hh hl hsub
    have hne : pyStrip st.current ≠ [] := subSeg_ne_nil hsne hsubstrip
    rw [if_pos hne]
    exact ⟨_, List.mem_append_right _ (List.mem_singleton_self _), hsubstrip⟩

/-- C5 (claim): a sentence unit longer than `chunk_size` is never split:
it appears verbatim, contiguously, inside a single chunk of the output,
and that chunk is itself oversized. -/
theorem c5_oversized_unit_whole (c : TextChunker) (md : Option PyDictVal)
    (text p s : List Char)
    (hp : p ∈ splitIntoParagraphs text)
    (hplong : (p.length : Int) > c.chunk_size)
    (hs : s ∈ splitIntoSentences p)
    (hslong : (s.length : Int) > c.chunk_size) :
    ∃ ch ∈ c.split_text text md, SubSeg s ch.text ∧
      (c.chunk_size : Int) < (ch.text.length : Int) := by
  obtain ⟨hsne, hh, hl⟩ := sentence_shape hs
  obtain ⟨hpne, c0, t0, hpeq, hc0⟩ := And.intro (para_shape hp).1 (para_shape hp).2
  have hc0text : c0 ∈ text := para_chars hp c0 (by rw [hpeq]; simp)
  have hguard : ¬(text = [] ∨ pyStrip text = []) := by
    push_neg
    refine ⟨fun h => by rw [h] at hc0text; simp at hc0text, fun h => ?_⟩
    have hmem := mem_pyStrip_of_mem hc0text hc0
    rw [h] at hmem; simp at hmem
  obtain ⟨l1, l2, hpl⟩ := List.append_of_mem hp
  obtain ⟨m1, m2, hsl⟩ := List.append_of_mem hs
  have hkey : holdsChunk s
      ((splitIntoParagraphs text).foldl (processPara c md) ⟨[], [], 0, 0⟩) := by
    rw [hpl, List.foldl_append, List.foldl_cons]
    apply foldl_processPara_pres hh hl
    unfold processPara
    rw [if_pos hplong, hsl, List.foldl_append, List.foldl_cons]
    apply foldl_chunkStep_pres hh hl
    exact chunkStep_estab c md [' '] _ hslong
  unfold TextChunker.split_text
  rw [if_neg hguard]
  obtain ⟨ch, hch, hsub⟩ := finish_holds hh hl md _ hkey
  refine ⟨ch, hch, hsub, ?_⟩
  have hlen := subSeg_length hsub
  omega

/-! ## Chunk index invariant (C7) -/

theorem chunkStep_idx (c : TextChunker) (md : Option PyDictVal)
    (sep : List Char) (st : ChunkSt) (u : List Char) (h : idxInv st) :
    idxInv (chunkStep c md sep st u) := by
  unfold chunkStep
  by_cases h1 : (st.current.length : Int) + (u.length : Int) ≤ c.chunk_size
  · rw [if_pos h1]; exact h
  · rw [if_neg h1]
    by_cases h2 : st.current ≠ []
    · rw [if_pos h2]
      simp only [idxInv]
      rw [List.map_append, h, List.range_succ]
      simp [mkChunk]
    · rw [if_neg h2]; exact h

theorem foldl_chunkStep_idx (c : TextChunker) (md : Option PyDictVal)
    (sep : List Char) :
    ∀ (l : List (List Char)) (st : ChunkSt), idxInv st →
      idxInv (l.foldl (chunkStep c md sep) st) := by
  intro l
  induction l with
  | nil => intro st h; exact h
  | cons u rest ih => intro st h; exact ih _ (chunkStep_idx c md sep st u h)

theorem processPara_idx (c : TextChunker) (md : Option PyDictVal)
    (st : ChunkSt) (q : List Char) (h : idxInv st) :
    idxInv (processPara c md st q) := by
  unfold processPara
  by_cases hq : (q.length : Int) > c.chunk_size
  · rw [if_pos hq]; exact foldl_chunkStep_idx c md _ _ st h
  · rw [if_neg hq]; exact chunkStep_idx c md _ st q h

theorem foldl_processPara_idx (c : TextChunker) (md : Option PyDictVal) :
    ∀ (l : List (List Char)) (st : ChunkSt), idxInv st →
      idxInv (l.foldl (processPara c md) st) := by
  intro l
  induction l with
  | nil => intro st h; exact h
  | cons q rest ih => intro st h; exact ih _ (processPara_idx c md st q h)

theorem finish_idx (md : Option PyDictVal) (st : ChunkSt) (h : idxInv st) :
    (finishChunks md st).map (·.chunk_index) =
      List.range (finishChunks md st).length := by
  have hlen : st.chunks.length = st.idx := by
    have := congrArg List.length h
    simpa using this
  unfold finishChunks
  by_cases hfin : pyStrip st.current ≠ []
  · rw [if_pos hfin, List.map_append, h]
    simp [mkChunk, List.range_succ, hlen]
  · rw [if_neg hfin, h, hlen]

/-- C7 (claim): `chunk_index` values form the gapless sequence
`0 … n-1` in emission order, and empty or all-whitespace input yields
the empty chunk sequence. -/
theorem c7_gapless_indices (c : TextChunker) (md : Option PyDictVal)
    (text : List Char) :
    (c.split_text text md).map (·.chunk_index) =
        List.range (c.split_text text md).length ∧
      (pyStrip text = [] → c.split_text text md = []) := by
  constructor
  · unfold TextChunker.split_text
    by_cases hguard : text = [] ∨ pyStrip text = []
    · rw [if_pos hguard]; simp
    · rw [if_neg hguard]
      apply finish_idx
      apply foldl_processPara_idx
      simp [idxInv]
  · intro h
    unfold TextChunker.split_text
    rw [if_pos (Or.inr h)]

/-! ## Sanitization lemmas (C4 / C10) -/

theorem dropWhile_length_le {α} (p : α → Bool) :
    ∀ l : List α, (l.dropWhile p).length ≤ l.length := by
  intro l
  induction l with
  | nil => simp
  | cons x xs ih =>
    rw [List.dropWhile_cons]
    by_cases hx : p x
    · simp only [hx, if_true]; simp; omega
    · simp [hx]

theorem dropWhile_append_last {α} (p : α → Bool) (c : α) (hc : p c = false) :
    ∀ a : List α, ∃ a2, List.dropWhile p (a ++ [c]) = a2 ++ [c] := by
  intro a
  induction a with
  | nil => exact ⟨[], by simp [List.dropWhile_cons, hc]⟩
  | cons x a' ih =>
    rw [List.cons_append, List.dropWhile_cons]
    by_cases hx : p x
    · simp only [hx, if_true]; exact ih
    · simp only [hx, Bool.false_eq_true, if_false]
      exact ⟨x :: a', rfl⟩

theorem rstripHU_cons {c0 : Char} (t : List Char)
    (hc : (c0 == '-' || c0 == '_') = false) :
    ∃ t2, rstripHU (c0 :: t) = c0 :: t2 := by
  unfold rstripHU
  obtain ⟨a2, ha⟩ := dropWhile_append_last (fun c => c == '-' || c == '_') c0 hc
    t.reverse
  rw [List.reverse_cons, ha, List.reverse_append]
  exact ⟨a2.reverse, rfl⟩

theorem rstripHU_length_le (l : List Char) : (rstripHU l).length ≤ l.length := by
  unfold rstripHU
  have := dropWhile_length_le (fun c => c == '-' || c == '_') l.reverse
  simpa using this

theorem rstripHU_subset {l : List Char} {c : Char} (h : c ∈ rstripHU l) : c ∈ l := by
  unfold rstripHU at h
  rw [List.mem_reverse] at h
  have := mem_of_mem_dropWhileP _ h
  rwa [List.mem_reverse] at this

theorem alpha_not_hu {c : Char} (h : c.isAlpha = true) :
    (c == '-' || c == '_') = false := by
  by_contra hne
  rcases Bool.or_eq_true_iff.mp (Bool.of_not_eq_false hne) with h1 | h1
  · rw [show c = '-' from beq_iff_eq.mp h1] at h; simp at h
  · rw [show c = '_' from beq_iff_eq.mp h1] at h; simp at h

/-- The sanitized part is nonempty, starts with an ASCII letter, has
only id-safe characters, and respects the length bound. -/
theorem sanitize_spec (text : List Char) (ml : Nat) (hml : 1 ≤ ml) :
    (∃ c0 t, sanitize_id_part text ml = c0 :: t ∧ c0.isAlpha = true) ∧
      (∀ ch ∈ sanitize_id_part text ml, isIdChar ch = true) ∧
      (sanitize_id_part text ml).length ≤ ml := by
  have h23 : ∃ c0 t0, san3 (san2 (san1 text)) = c0 :: t0 ∧ c0.isAlpha = true ∧
      (∀ ch ∈ c0 :: t0, isIdChar ch = true) := by
    rcases h1 : san1 text with _ | ⟨c, t⟩
    · exact ⟨'u', "nknown".toList, by simp [san2, san3], by decide, by decide⟩
    · have hchars : ∀ ch ∈ c :: t, isIdChar ch = true := by
        intro ch hch
        rw [← h1] at hch
        exact (List.mem_filter.mp hch).2
      by_cases hca : c.isAlpha
      · refine ⟨c, t, ?_, hca, hchars⟩
        simp [san2, san3, hca]
      · refine ⟨'d', 'o' :: 'c' :: c :: t, ?_, by decide, ?_⟩
        · simp [san2, san3, hca]
        · intro ch hch
          rcases List.mem_cons.mp hch with rfl | hch
          · decide
          rcases List.mem_cons.mp hch with rfl | hch
          · decide
          rcases List.mem_cons.mp hch with rfl | hch
          · decide
          exact hchars ch hch
  obtain ⟨c0, t0, heq, hc0, hchars⟩ := h23
  have h4 : ∃ t1, san4 ml (san3 (san2 (san1 text))) = c0 :: t1 ∧
      (c0 :: t1).length ≤ ml ∧ (∀ ch ∈ c0 :: t1, isIdChar ch = true) := by
    unfold san4
    rw [heq]
    by_cases hlen : ml < (c0 :: t0).length
    · rw [if_pos hlen]
      obtain ⟨m, hm⟩ := Nat.exists_eq_add_of_le hml
      subst hm
      refine ⟨t0.take m, by rw [Nat.add_comm 1 m]; simp [List.take_succ_cons], ?_, ?_⟩
      · simp
        omega
      · intro ch hch
        rcases List.mem_cons.mp hch with rfl | hch2
        · exact hchars ch (List.mem_cons_self _ _)
        · exact hchars ch (List.mem_cons_of_mem _ (List.take_subset _ _ hch2))
    · rw [if_neg hlen]
      refine ⟨t0, rfl, ?_, hchars⟩
      omega
  obtain ⟨t1, heq4, hlen4, hchars4⟩ := h4
  obtain ⟨t2, heq5⟩ := rstripHU_cons t1 (alpha_not_hu hc0)
  have hfne : rstripHU (san4 ml (san3 (san2 (san1 text)))) ≠ [] := by
    rw [heq4, heq5]
    simp
  have hres : sanitize_id_part text ml = rstripHU (c0 :: t1) := by
    unfold sanitize_id_part
    rw [if_neg hfne, heq4]
  refine ⟨⟨c0, t2, by rw [hres, heq5], hc0⟩, ?_, ?_⟩
  · intro ch hch
    rw [hres] at hch
    exact hchars4 ch (rstripHU_subset hch)
  · rw [hres]
    exact le_trans (rstripHU_length_le _) hlen4

/-! ## Digit and hex character lemmas -/

theorem digitChar_isDigit {m : Nat} (h : m < 10) :
    (Char.ofNat (48 + m)).isDigit = true := by
  interval_cases m <;> decide

theorem natDigitsAux_chars :
    ∀ (fuel n : Nat), ∀ c ∈ natDigitsAux fuel n, c.isDigit = true := by
  intro fuel
  induction fuel with
  | zero => intro n c hc; simp [natDigitsAux] at hc
  | succ f ih =>
    intro n c hc
    rw [natDigitsAux] at hc
    by_cases hn : n < 10
    · rw [if_pos hn] at hc
      rw [List.mem_singleton.mp hc]
      exact digitChar_isDigit hn
    · rw [if_neg hn] at hc
      rcases List.mem_append.mp hc with h | h
      · exact ih _ c h
      · rw [List.mem_singleton.mp h]
        exact digitChar_isDigit (Nat.mod_lt _ (by norm_num))

theorem isIdChar_of_isDigit {c : Char} (h : c.isDigit = true) :
    isIdChar c = true := by
  unfold isIdChar
  rw [h]
  simp

theorem intToString_chars (z : Int) :
    ∀ c ∈ intToString z, isIdChar c = true := by
  intro c hc
  unfold intToString at hc
  by_cases hz : z < 0
  · rw [if_pos hz] at hc
    rcases List.mem_cons.mp hc with rfl | h
    · decide
    · exact isIdChar_of_isDigit (natDigitsAux_chars _ _ c h)
  · rw [if_neg hz] at hc
    exact isIdChar_of_isDigit (natDigitsAux_chars _ _ c hc)

theorem hexChar_ok (n : Nat) : isIdChar (hexChar n) = true := by
  unfold hexChar
  by_cases hn : n < 10
  · rw [if_pos hn]
    exact isIdChar_of_isDigit (digitChar_isDigit hn)
  · rw [if_neg hn]
    have h6 : (n - 10) % 6 < 6 := Nat.mod_lt _ (by norm_num)
    set k := (n - 10) % 6 with hk
    interval_cases k <;> decide

theorem md5Hex8_chars (l : List Char) :
    ∀ c ∈ md5Hex8 l, isIdChar c = true := by
  intro c hc
  unfold md5Hex8 at hc
  have h1 := List.take_subset _ _ hc
  unfold bytesToHex at h1
  rcases List.mem_flatMap.mp h1 with ⟨b, _, hb⟩
  rcases List.mem_cons.mp hb with rfl | hb2
  · exact hexChar_ok _
  · rw [List.mem_singleton.mp hb2]
    exact hexChar_ok _

theorem bytesToHex_length (bs : List Nat) :
    (bytesToHex bs).length = 2 * bs.length := by
  unfold bytesToHex
  induction bs with
  | nil => simp
  | cons b t ih =>
    rw [List.flatMap_cons]
    simp at ih ⊢
    omega

theorem md5Bytes_length (msg : List Nat) : (md5Bytes msg).length = 16 := by
  unfold md5Bytes
  simp [wordLEBytes]

theorem md5Hex8_length (l : List Char) : (md5Hex8 l).length = 8 := by
  unfold md5Hex8
  rw [List.length_take, bytesToHex_length, md5Bytes_length]
  decide

/-! ## Identifier pattern lemmas and claims C10 / C4 / C6 / C1 -/

theorem allId_append {l1 l2 : List Char}
    (h1 : ∀ ch ∈ l1, isIdChar ch = true) (h2 : ∀ ch ∈ l2, isIdChar ch = true) :
    ∀ ch ∈ l1 ++ l2, isIdChar ch = true := by
  intro ch hch
  rcases List.mem_append.mp hch with h | h
  · exact h1 ch h
  · exact h2 ch h

theorem allId_cons {c : Char} {l : List Char} (hc : isIdChar c = true)
    (h : ∀ ch ∈ l, isIdChar ch = true) : ∀ ch ∈ c :: l, isIdChar ch = true := by
  intro ch hch
  rcases List.mem_cons.mp hch with rfl | hch
  · exact hc
  · exact h ch hch

theorem matchesIdPattern_intro {c : Char} {t : List Char} (hc : c.isAlpha = true)
    (hall : ∀ ch ∈ c :: t, isIdChar ch = true) :
    matchesIdPattern (c :: t) = true := by
  have h2 : (c :: t).all isIdChar = true := List.all_eq_true.mpr hall
  simp [matchesIdPattern, hc, h2]

theorem matchesIdPattern_append {l1 l2 : List Char} {c : Char} {t : List Char}
    (h1 : l1 = c :: t) (hc : c.isAlpha = true)
    (hall1 : ∀ ch ∈ l1, isIdChar ch = true)
    (hall2 : ∀ ch ∈ l2, isIdChar ch = true) :
    matchesIdPattern (l1 ++ l2) = true := by
  subst h1
  rw [List.cons_append]
  apply matchesIdPattern_intro hc
  apply allId_cons (hall1 c (List.mem_cons_self _ _))
  intro ch hch
  rcases List.mem_append.mp hch with h | h
  · exact hall1 ch (List.mem_cons_of_mem _ h)
  · exact hall2 ch h

/-- C10 (claim): without a chunk index the hash-shortening branch is
unreachable — the output is exactly the plain underscore-join of the
three sanitized parts, of length at most 82. -/
theorem c10_no_hash_branch (s d i : List Char) :
    create_document_id s d i Option.none = docIdRaw s d i Option.none ∧
      (create_document_id s d i Option.none).length ≤ 82 := by
  obtain ⟨_, _, hls⟩ := sanitize_spec s 20 (by norm_num)
  obtain ⟨_, _, hld⟩ := sanitize_spec d 20 (by norm_num)
  obtain ⟨_, _, hli⟩ := sanitize_spec i 40 (by norm_num)
  have hlen : (docIdRaw s d i Option.none).length ≤ 82 := by
    simp only [docIdRaw]
    simp only [List.length_append, List.length_cons]
    omega
  have hcond : ¬ (1024 < (docIdRaw s d i Option.none).length) := by omega
  unfold create_document_id
  rw [if_neg hcond]
  exact ⟨rfl, hlen⟩

/-- C4 (amended): for all input strings and any chunk index whose decimal
rendering has at most 993 characters, the produced id matches
`^[A-Za-z][A-Za-z0-9_-]*$` and has length at most 1024. -/
theorem c4_id_wellformed (s d i : List Char) (ci : Option Int)
    (hci : ciDigitsLen ci ≤ 993) :
    matchesIdPattern (create_document_id s d i ci) = true ∧
      (create_document_id s d i ci).length ≤ 1024 := by
  obtain ⟨⟨cs, ts, hseq, hsa⟩, hschars, hls⟩ := sanitize_spec s 20 (by norm_num)
  obtain ⟨⟨cd, td, hdeq, hda⟩, hdchars, hld⟩ := sanitize_spec d 20 (by norm_num)
  obtain ⟨⟨cii, tii, hieq, hia⟩, hichars, hli⟩ := sanitize_spec i 40 (by norm_num)
  have hdigs : ∀ z : Int, ∀ ch ∈ intToString z, isIdChar ch = true :=
    intToString_chars
  by_cases hbig : 1024 < (docIdRaw s d i ci).length
  · -- hash-shortening branch
    unfold create_document_id
    rw [if_pos hbig]
    have htk : (sanitize_id_part s 20).take 10 = cs :: ts.take 9 := by
      rw [hseq]
      show List.take (9 + 1) (cs :: ts) = cs :: List.take 9 ts
      rw [List.take_succ_cons]
    have htkchars : ∀ ch ∈ (sanitize_id_part s 20).take 10, isIdChar ch = true :=
      fun ch hch => hschars ch (List.take_subset _ _ hch)
    have htkdchars : ∀ ch ∈ (sanitize_id_part d 20).take 10, isIdChar ch = true :=
      fun ch hch => hdchars ch (List.take_subset _ _ hch)
    constructor
    · rcases ci with _ | z
      · simp only [docIdShort]
        refine matchesIdPattern_append htk hsa htkchars ?_
        exact allId_cons (by decide) (allId_append htkdchars
          (allId_cons (by decide) (md5Hex8_chars _)))
      · simp only [docIdShort]
        refine matchesIdPattern_append htk hsa htkchars ?_
        exact allId_cons (by decide) (allId_append htkdchars
          (allId_cons (by decide) (allId_append (md5Hex8_chars _)
            (allId_cons (by decide) (hdigs z)))))
    · have hts : ((sanitize_id_part s 20).take 10).length ≤ 10 := by
        rw [List.length_take]; omega
      have htd : ((sanitize_id_part d 20).take 10).length ≤ 10 := by
        rw [List.length_take]; omega
      rcases ci with _ | z
      · simp only [docIdShort, List.length_append, List.length_cons,
          md5Hex8_length]
        omega
      · have hz : (intToString z).length ≤ 993 := hci
        simp only [docIdShort, List.length_append, List.length_cons,
          md5Hex8_length]
        omega
  · -- raw branch
    unfold create_document_id
    rw [if_neg hbig]
    refine ⟨?_, Nat.le_of_not_lt hbig⟩
    rcases ci with _ | z
    · simp only [docIdRaw]
      refine matchesIdPattern_append hseq hsa hschars ?_
      exact allId_cons (by decide) (allId_append hdchars
        (allId_cons (by decide) hichars))
    · simp only [docIdRaw]
      refine matchesIdPattern_append hseq hsa hschars ?_
      exact allId_cons (by decide) (allId_append hdchars
        (allId_cons (by decide) (allId_append hichars
          (allId_cons (by decide) (hdigs z)))))

/-- Witness for C4: a concrete valid instantiation. -/
theorem c4_id_wellformed_witness :
    ciDigitsLen (some 3) ≤ 993 ∧
      (matchesIdPattern (create_document_id "123-site".toList "drive!".toList
          "item".toList (some 3)) = true ∧
        (create_document_id "123-site".toList "drive!".toList "item".toList
          (some 3)).length ≤ 1024) :=
  ⟨by decide, c4_id_wellformed "123-site".toList "drive!".toList "item".toList
    (some 3) (by decide)⟩

theorem natDigitsAux_length :
    ∀ (fuel k n : Nat), 10 ^ k ≤ n → n < 10 ^ (k + 1) → k + 1 ≤ fuel →
      (natDigitsAux fuel n).length = k + 1 := by
  intro fuel
  induction fuel with
  | zero => intro k n _ _ hf; omega
  | succ f ih =>
    intro k n hlo hhi hf
    rw [natDigitsAux]
    by_cases hn : n < 10
    · rw [if_pos hn]
      have hk : k = 0 := by
        by_contra hk0
        have h1 : 10 ^ 1 ≤ 10 ^ k := Nat.pow_le_pow_right (by norm_num) (by omega)
        simp at h1
        omega
      simp [hk]
    · rw [if_neg hn]
      have hk1 : 1 ≤ k := by
        by_contra hk0
        have hk : k = 0 := by omega
        rw [hk] at hhi
        simp at hhi
        omega
      have hdivlo : 10 ^ (k - 1) ≤ n / 10 := by
        apply Nat.le_div_iff_mul_le (by norm_num) |>.mpr
        calc 10 ^ (k - 1) * 10 = 10 ^ (k - 1 + 1) := by ring
          _ = 10 ^ k := by congr 1; omega
          _ ≤ n := hlo
      have hdivhi : n / 10 < 10 ^ (k - 1 + 1) := by
        rw [Nat.div_lt_iff_lt_mul (by norm_num)]
        calc n < 10 ^ (k + 1) := hhi
          _ = 10 ^ (k - 1 + 1) * 10 := by
            rw [← Nat.pow_succ]
            congr 1
            omega
      rw [List.length_append]
      rw [ih (k - 1) (n / 10) hdivlo hdivhi (by omega)]
      simp
      omega

theorem pow10_1018_digits :
    (intToString ((10 : Int) ^ 1018)).length = 1019 := by
  have hnn : ¬ ((10 : Int) ^ 1018 < 0) := by
    have h0 : (0 : Int) ≤ 10 ^ 1018 := pow_nonneg (by norm_num) _
    omega
  unfold intToString
  rw [if_neg hnn]
  have htn : ((10 : Int) ^ 1018).toNat = 10 ^ 1018 := by
    rw [show (10 : Int) = ((10 : Nat) : Int) from rfl, ← Nat.cast_pow,
      Int.toNat_natCast]
  rw [htn]
  have hfuel : 1018 + 1 ≤ 10 ^ 1018 + 1 := by
    have h1 : 1018 + 1 ≤ 10 ^ 4 := by norm_num
    have h2 : 10 ^ 4 ≤ 10 ^ 1018 := Nat.pow_le_pow_right (by norm_num) (by norm_num)
    omega
  exact natDigitsAux_length _ 1018 _ (le_refl _)
    (Nat.pow_lt_pow_right (by norm_num) (by norm_num)) hfuel

theorem c4_cex_aux (P : Int) (hdig : (intToString P).length = 1019) :
    1024 < (create_document_id ['s'] ['d'] ['i'] (some P)).length := by
  have hs1 : (sanitize_id_part ['s'] 20).length = 1 := by decide
  have hd1 : (sanitize_id_part ['d'] 20).length = 1 := by decide
  have hi1 : (sanitize_id_part ['i'] 40).length = 1 := by decide
  have hst : ((sanitize_id_part ['s'] 20).take 10).length = 1 := by decide
  have hdt : ((sanitize_id_part ['d'] 20).take 10).length = 1 := by decide
  have hbig : 1024 < (docIdRaw ['s'] ['d'] ['i'] (some P)).length := by
    simp only [docIdRaw, List.length_append, List.length_cons, hdig, hs1,
      hd1, hi1]
    omega
  unfold create_document_id
  rw [if_pos hbig]
  simp only [docIdShort, List.length_append, List.length_cons,
    md5Hex8_length, hdig, hst, hdt]
  omega

/-- C4 (counterexample to the claim as stated): with a chunk index of
1019 decimal digits the id still embeds the full index after hash
shortening, so its length exceeds 1024. -/
theorem c4_length_cex :
    1024 < (create_document_id ['s'] ['d'] ['i']
      (some ((10 : Int) ^ 1018))).length :=
  c4_cex_aux _ pow10_1018_digits

/-- C6 (claim): `create_document_id` is a pure function of its four
arguments — identical inputs always produce the identical identifier
(the embedding threads no state and uses no randomness; `md5` is a pure
function of the raw id). -/
theorem c6_deterministic (s d i : List Char) (ci : Option Int)
    (s' d' i' : List Char) (ci' : Option Int)
    (hs : s = s') (hd : d = d') (hi : i = i') (hc : ci = ci') :
    create_document_id s d i ci = create_document_id s' d' i' ci' := by
  rw [hs, hd, hi, hc]

/-- Witness for C6. -/
theorem c6_deterministic_witness :
    create_document_id "site".toList "drive".toList "item".toList (some 7) =
      create_document_id "site".toList "drive".toList "item".toList (some 7) :=
  c6_deterministic _ _ _ _ _ _ _ _ rfl rfl rfl rfl

/-- C1 (counterexample to the claim as stated): constructing the chunker
with the invalid configuration `chunk_size = 0`, `chunk_overlap = 200`
does not fail — the source constructor performs no validation and simply
stores the values. -/
theorem c1_no_validation_cex :
    TextChunker.init 0 200 = { chunk_size := 0, chunk_overlap := 200 } := rfl

/-- C1 (amended): construction never fails; any configuration, valid or
invalid, is accepted and stored unchanged. -/
theorem c1_init_total (cs co : Int) :
    TextChunker.init cs co = { chunk_size := cs, chunk_overlap := co } := rfl

/-- C2 (code bug): with `chunk_overlap = 0` the overlap carried into the
next chunk is the entire just-emitted buffer, not the empty string,
because Python's `s[-0:]` is the whole string.  Each later chunk
re-contains all earlier text. -/
theorem c2_overlap_zero_bug :
    ((TextChunker.init 5 0).split_text "ab\n\ncd\n\nef".toList Option.none).map
        (·.text) =
      ["ab".toList, "ab\n\ncd".toList, "ab\n\ncd\n\nef".toList] := by decide

/-! ## ACL extractor claims (C3 / C8 / C9) -/

theorem collectSub_ok (sub : PyVal) (out : List PyVal)
    (h : subjectOk sub = true) (hout : ∀ x ∈ out, pyHashable x = true) :
    ∃ r, collectSub sub out = Except.ok r ∧ ∀ x ∈ r, pyHashable x = true := by
  rcases sub with _ | s | n | xs | kvs2
  · exact ⟨out, rfl, hout⟩
  · have ht : pyTruthy (PyVal.str s) = false := by
      simpa [subjectOk] using h
    exact ⟨out, by simp [collectSub, ht], hout⟩
  · have ht : pyTruthy (PyVal.int n) = false := by
      simpa [subjectOk] using h
    exact ⟨out, by simp [collectSub, ht], hout⟩
  · have ht : pyTruthy (PyVal.list xs) = false := by
      simpa [subjectOk] using h
    exact ⟨out, by simp [collectSub, ht], hout⟩
  · unfold collectSub
    by_cases ht : pyTruthy (PyVal.dict kvs2) = true
    · rw [if_pos ht]
      by_cases hc : kvs2.any (·.1 == ['i', 'd']) = true
      · have hfind : (kvs2.find? (·.1 == ['i', 'd'])).isSome := by
          rw [List.find?_isSome]
          rcases List.any_eq_true.mp hc with ⟨kv, hkv, hbeq⟩
          exact ⟨kv, hkv, hbeq⟩
        rcases hfo : kvs2.find? (·.1 == ['i', 'd']) with _ | kv
        · rw [hfo] at hfind; simp at hfind
        · have hkvh : pyHashable kv.2 = true := by
            simp only [subjectOk] at h
            rw [hfo] at h
            exact h
          refine ⟨out ++ [kv.2], ?_, ?_⟩
          · simp only [pyContains, pyIndexE, hc, if_true, hfo]
          · intro x hx
            rcases List.mem_append.mp hx with hx | hx
            · exact hout x hx
            · rw [List.mem_singleton.mp hx]
              exact hkvh
      · refine ⟨out, ?_, hout⟩
        simp only [pyContains, hc, Bool.false_eq_true, if_false]
    · rw [if_neg ht]
      exact ⟨out, rfl, hout⟩

theorem collectId_dict_ok (kvs : List (List Char × PyVal)) (key : List Char)
    (out : List PyVal) (h : subjectOk (pyDictGet kvs key) = true)
    (hout : ∀ x ∈ out, pyHashable x = true) :
    ∃ r, collectId (.dict kvs) key out = Except.ok r ∧
      ∀ x ∈ r, pyHashable x = true := by
  have heq : collectId (.dict kvs) key out = collectSub (pyDictGet kvs key) out :=
    rfl
  rw [heq]
  exact collectSub_ok _ _ h hout

theorem goIdents_ok :
    ∀ (l : List PyVal) (acc : List PyVal × List PyVal),
      (∀ idv ∈ l, identityOk idv = true) →
      (∀ x ∈ acc.1, pyHashable x = true) →
      (∀ x ∈ acc.2, pyHashable x = true) →
      ∃ r, goIdents l acc = Except.ok r ∧
        (∀ x ∈ r.1, pyHashable x = true) ∧ (∀ x ∈ r.2, pyHashable x = true) := by
  intro l
  induction l with
  | nil => intro acc _ h1 h2; exact ⟨acc, rfl, h1, h2⟩
  | cons idv rest ih =>
    intro acc hall h1 h2
    have hid := hall idv (List.mem_cons_self _ _)
    rcases idv with _ | s | n | xs | kvs <;> try simp [identityOk] at hid
    obtain ⟨hu, hg⟩ := hid
    obtain ⟨us, hus, hush⟩ := collectId_dict_ok kvs "user".toList acc.1 hu h1
    obtain ⟨gs, hgs, hgsh⟩ := collectId_dict_ok kvs "group".toList acc.2 hg h2
    obtain ⟨r, hr, hrh⟩ := ih (us, gs)
      (fun x hx => hall x (List.mem_cons_of_mem _ hx)) hush hgsh
    refine ⟨r, ?_, hrh⟩
    unfold goIdents
    rw [hus, hgs]
    exact hr

theorem grantedCollect_ok (g : PyVal) (acc : List PyVal × List PyVal)
    (h : grantedPartOk g = true)
    (h1 : ∀ x ∈ acc.1, pyHashable x = true)
    (h2 : ∀ x ∈ acc.2, pyHashable x = true) :
    ∃ r, grantedCollect g acc = Except.ok r ∧
      (∀ x ∈ r.1, pyHashable x = true) ∧ (∀ x ∈ r.2, pyHashable x = true) := by
  rcases g with _ | s | n | xs | kvs
  · exact ⟨acc, rfl, h1, h2⟩
  · have ht : pyTruthy (PyVal.str s) = false := by
      simpa [grantedPartOk] using h
    exact ⟨acc, by simp [grantedCollect, ht], h1, h2⟩
  · have ht : pyTruthy (PyVal.int n) = false := by
      simpa [grantedPartOk] using h
    exact ⟨acc, by simp [grantedCollect, ht], h1, h2⟩
  · have ht : pyTruthy (PyVal.list xs) = false := by
      simpa [grantedPartOk] using h
    exact ⟨acc, by simp [grantedCollect, ht], h1, h2⟩
  · simp only [grantedPartOk, Bool.and_eq_true] at h
    obtain ⟨hu, hg⟩ := h
    unfold grantedCollect
    by_cases ht : pyTruthy (PyVal.dict kvs) = true
    · rw [if_pos ht]
      obtain ⟨us, hus, hush⟩ := collectId_dict_ok kvs "user".toList acc.1 hu h1
      obtain ⟨gs, hgs, hgsh⟩ := collectId_dict_ok kvs "group".toList acc.2 hg h2
      rw [hus, hgs]
      exact ⟨(us, gs), rfl, hush, hgsh⟩
    · rw [if_neg ht]
      exact ⟨acc, rfl, h1, h2⟩

theorem procPerm_ok (kvs : List (List Char × PyVal))
    (acc : List PyVal × List PyVal) (h : recordOk (.dict kvs) = true)
    (h1 : ∀ x ∈ acc.1, pyHashable x = true)
    (h2 : ∀ x ∈ acc.2, pyHashable x = true) :
    ∃ r, procPerm acc (.dict kvs) = Except.ok r ∧
      (∀ x ∈ r.1, pyHashable x = true) ∧ (∀ x ∈ r.2, pyHashable x = true) := by
  simp only [recordOk, Bool.and_eq_true] at h
  obtain ⟨hgr, hids⟩ := h
  unfold procPerm
  simp only [pyGetE]
  by_cases htV2 : pyTruthy (pyDictGet kvs ("grantedToV2".toList)) = true
  · simp only [htV2, if_true] at hgr ⊢
    obtain ⟨acc1, hacc1, hacc1h⟩ := grantedCollect_ok _ acc hgr h1 h2
    rw [hacc1]
    by_cases htIds : pyTruthy (pyDictGet kvs ("grantedToIdentitiesV2".toList)) = true
    · simp only [htIds, if_true] at hids ⊢
      rcases hsel : pyDictGet kvs ("grantedToIdentitiesV2".toList) with
          _ | _ | _ | l | _ <;> rw [hsel] at hids <;> try simp at hids
      simp only [pyIterate]
      exact goIdents_ok l acc1 (by simpa using hids) hacc1h.1 hacc1h.2
    · rw [Bool.not_eq_true] at htIds
      simp only [htIds, Bool.false_eq_true, if_false] at hids ⊢
      rcases hsel : pyDictGetD kvs ("grantedToIdentities".toList) (.list []) with
          _ | _ | _ | l | _ <;> rw [hsel] at hids <;> try simp at hids
      simp only [pyIterate]
      exact goIdents_ok l acc1 (by simpa using hids) hacc1h.1 hacc1h.2
  · rw [Bool.not_eq_true] at htV2
    simp only [htV2, Bool.false_eq_true, if_false] at hgr ⊢
    obtain ⟨acc1, hacc1, hacc1h⟩ := grantedCollect_ok _ acc hgr h1 h2
    rw [hacc1]
    by_cases htIds : pyTruthy (pyDictGet kvs ("grantedToIdentitiesV2".toList)) = true
    · simp only [htIds, if_true] at hids ⊢
      rcases hsel : pyDictGet kvs ("grantedToIdentitiesV2".toList) with
          _ | _ | _ | l | _ <;> rw [hsel] at hids <;> try simp at hids
      simp only [pyIterate]
      exact goIdents_ok l acc1 (by simpa using hids) hacc1h.1 hacc1h.2
    · rw [Bool.not_eq_true] at htIds
      simp only [htIds, Bool.false_eq_true, if_false] at hids ⊢
      rcases hsel : pyDictGetD kvs ("grantedToIdentities".toList) (.list []) with
          _ | _ | _ | l | _ <;> rw [hsel] at hids <;> try simp at hids
      simp only [pyIterate]
      exact goIdents_ok l acc1 (by simpa using hids) hacc1h.1 hacc1h.2

theorem goPerms_ok :
    ∀ (xs : List PyVal) (acc : List PyVal × List PyVal),
      (∀ p ∈ xs, recordOk p = true) →
      (∀ x ∈ acc.1, pyHashable x = true) →
      (∀ x ∈ acc.2, pyHashable x = true) →
      ∃ r, goPerms xs acc = Except.ok r ∧
        (∀ x ∈ r.1, pyHashable x = true) ∧ (∀ x ∈ r.2, pyHashable x = true) := by
  intro xs
  induction xs with
  | nil => intro acc _ h1 h2; exact ⟨acc, rfl, h1, h2⟩
  | cons p rest ih =>
    intro acc hall h1 h2
    have hp := hall p (List.mem_cons_self _ _)
    rcases p with _ | _ | _ | _ | kvs <;> try simp [recordOk] at hp
    obtain ⟨acc2, hacc2, hacc2h⟩ := procPerm_ok kvs acc
      (by simp [recordOk, Bool.and_eq_true]; exact hp) h1 h2
    obtain ⟨r, hr, hrh⟩ := ih acc2
      (fun x hx => hall x (List.mem_cons_of_mem _ hx)) hacc2h.1 hacc2h.2
    refine ⟨r, ?_, hrh⟩
    unfold goPerms
    rw [hacc2]
    exact hr

theorem dedupPyE_ok (l : List PyVal) (h : ∀ x ∈ l, pyHashable x = true) :
    dedupPyE l = Except.ok (dedupPy l) := by
  unfold dedupPyE
  rw [if_pos (List.all_eq_true.mpr h)]

theorem dedupPyE_ok_elim {l us : List PyVal} (h : dedupPyE l = Except.ok us) :
    us = dedupPy l := by
  unfold dedupPyE at h
  by_cases hall : l.all pyHashable = true
  · rw [if_pos hall] at h
    simp only [Except.ok.injEq] at h
    exact h.symm
  · rw [if_neg hall] at h
    simp at h

/-- C3 (counterexample to the claim as stated): a permission record that
is not a mapping makes `extract_acl_from_permissions` raise
`AttributeError` (`perm.get` on an `int`), even though the top-level
input is a perfectly iterable list — the extractor can fail on malformed
records, not only on a non-iterable top-level input. -/
theorem c3_nonmapping_record_cex :
    extract_acl_from_permissions (.list [.int 5]) =
      Except.error PyErr.attributeError := rfl

/-- C3 (amended): the extractor silently skips missing or falsy
sub-fields and succeeds on every list of mapping-shaped records (mapping
or falsy granted-to and user/group sub-values whose `id` values are
hashable, list-of-mapping identity lists); but it can fail on malformed
records — a non-mapping record raises `AttributeError` during the loop,
and an unhashable collected id (e.g. a dict) makes the final `set(...)`
deduplication raise `TypeError` — not only on a non-iterable top-level
input (which raises `TypeError`). -/
theorem c3_wellformed_records_ok (xs : List PyVal)
    (h : ∀ p ∈ xs, recordOk p = true) :
    ∃ r, extract_acl_from_permissions (.list xs) = Except.ok r := by
  obtain ⟨r0, hr0, hh1, hh2⟩ := goPerms_ok xs ([], []) h (by simp) (by simp)
  refine ⟨(dedupPy r0.1, dedupPy r0.2), ?_⟩
  unfold extract_acl_from_permissions
  simp only [pyIterate]
  rw [hr0]
  show (match dedupPyE r0.1 with
    | Except.error e => Except.error e
    | Except.ok us =>
      match dedupPyE r0.2 with
      | Except.error e => Except.error e
      | Except.ok gs => Except.ok (us, gs)) =
    Except.ok (dedupPy r0.1, dedupPy r0.2)
  rw [dedupPyE_ok _ hh1, dedupPyE_ok _ hh2]

/-- The modelled extractor reproduces the `TypeError` that
`list(set(...))` raises when a collected identifier value is unhashable
(here a dict id), even though every record is mapping-shaped. -/
theorem extract_unhashable_id_typeError :
    extract_acl_from_permissions (.list
      [.dict [("grantedToV2".toList, .dict [("user".toList,
        .dict [("id".toList, .dict [])])])]]) =
      Except.error PyErr.typeError := rfl

/-- Witness for C3: the spec's own scenario, including a record whose
granted-to sub-record lacks a `group`, processes without error. -/
theorem c3_wellformed_records_ok_witness :
    (∀ p ∈ ([.dict [("grantedToV2".toList, .dict [("user".toList,
          .dict [("id".toList, .str "u1".toList)])])],
        .dict [("grantedToIdentitiesV2".toList, .list
          [.dict [("group".toList, .dict [("id".toList,
            .str "g1".toList)])]])]] : List PyVal), recordOk p = true) ∧
      ∃ r, extract_acl_from_permissions (.list
        [.dict [("grantedToV2".toList, .dict [("user".toList,
          .dict [("id".toList, .str "u1".toList)])])],
         .dict [("grantedToIdentitiesV2".toList, .list
          [.dict [("group".toList, .dict [("id".toList,
            .str "g1".toList)])]])]]) = Except.ok r := by
  have hall : ∀ p ∈ ([.dict [("grantedToV2".toList, .dict [("user".toList,
          .dict [("id".toList, .str "u1".toList)])])],
        .dict [("grantedToIdentitiesV2".toList, .list
          [.dict [("group".toList, .dict [("id".toList,
            .str "g1".toList)])]])]] : List PyVal), recordOk p = true := by
    intro p hp
    rcases List.mem_cons.mp hp with rfl | hp
    · rfl
    rcases List.mem_cons.mp hp with rfl | hp
    · rfl
    · simp at hp
  exact ⟨hall, c3_wellformed_records_ok _ hall⟩

/-- C8 (counterexample to the claim as stated): when `grantedToV2` is
present but empty (falsy), the source's `or` falls back to the legacy
`grantedTo` and collects its identifiers — so with both fields present
the v2 field is not always the one read. -/
theorem c8_empty_v2_fallback_cex :
    extract_acl_from_permissions (.list
      [.dict [("grantedToV2".toList, .dict []),
              ("grantedTo".toList, .dict [("user".toList,
                .dict [("id".toList, .str "u1".toList)])])]]) =
      Except.ok ([.str "u1".toList], []) := rfl

/-- C8 (amended): the selection is truthiness-based: when `grantedToV2`
is present with a truthy (non-empty) value, its identifiers are read and
the legacy `grantedTo` is ignored; likewise `grantedToIdentitiesV2` is
preferred over `grantedToIdentities` when truthy; when neither identities
field is present the list defaults to empty. -/
theorem c8_truthy_v2_preference (u v : List Char) :
    extract_acl_from_permissions (.list
        [.dict [("grantedToV2".toList, .dict [("user".toList,
            .dict [("id".toList, .str u)])]),
          ("grantedTo".toList, .dict [("user".toList,
            .dict [("id".toList, .str v)])])]]) =
        Except.ok ([.str u], []) ∧
      extract_acl_from_permissions (.list
        [.dict [("grantedToIdentitiesV2".toList, .list [.dict [("user".toList,
            .dict [("id".toList, .str u)])]]),
          ("grantedToIdentities".toList, .list [.dict [("user".toList,
            .dict [("id".toList, .str v)])]])]]) =
        Except.ok ([.str u], []) ∧
      extract_acl_from_permissions (.list [.dict []]) = Except.ok ([], []) :=
  ⟨rfl, rfl, rfl⟩

/-! C9: deduplication of the returned identity collections. -/

theorem dedupPy_pairwise (l : List PyVal) :
    (dedupPy l).Pairwise (fun a b => pyEq a b = false) := by
  suffices h : ∀ acc : List PyVal, acc.Pairwise (fun a b => pyEq a b = false) →
      (l.foldl (fun acc x =>
        if acc.any (fun a => pyEq a x) then acc else acc ++ [x]) acc).Pairwise
        (fun a b => pyEq a b = false) by
    exact h [] (by simp)
  induction l with
  | nil => intro acc hacc; exact hacc
  | cons x rest ih =>
    intro acc hacc
    rw [List.foldl_cons]
    apply ih
    by_cases hx : acc.any (fun a => pyEq a x) = true
    · rw [if_pos hx]; exact hacc
    · rw [if_neg hx]
      rw [List.pairwise_append]
      refine ⟨hacc, by simp, ?_⟩
      intro a ha b hb
      rw [List.mem_singleton.mp hb]
      have hall := List.any_eq_false.mp (Bool.eq_false_iff.mpr hx)
      simpa using hall a ha

/-- C9 (claim): both returned identity collections are deduplicated —
no two entries of `user_ids` (resp. `group_ids`) are equal under
Python `==`. -/
theorem c9_dedup (v : PyVal) (r : List PyVal × List PyVal)
    (h : extract_acl_from_permissions v = Except.ok r) :
    r.1.Pairwise (fun a b => pyEq a b = false) ∧
      r.2.Pairwise (fun a b => pyEq a b = false) := by
  unfold extract_acl_from_permissions at h
  rcases hit : pyIterate v with e | perms <;> rw [hit] at h
  · exact absurd h (by simp)
  · replace h : (match goPerms perms ([], []) with
        | Except.error e => Except.error e
        | Except.ok r0 =>
          match dedupPyE r0.1 with
          | Except.error e => Except.error e
          | Except.ok us =>
            match dedupPyE r0.2 with
            | Except.error e => Except.error e
            | Except.ok gs => Except.ok (us, gs)) =
        Except.ok r := h
    rcases hgo : goPerms perms ([], []) with e | r0 <;> rw [hgo] at h
    · exact absurd h (by simp)
    · replace h : (match dedupPyE r0.1 with
          | Except.error e => Except.error e
          | Except.ok us =>
            match dedupPyE r0.2 with
            | Except.error e => Except.error e
            | Except.ok gs => Except.ok (us, gs)) = Except.ok r := h
      rcases hd1 : dedupPyE r0.1 with e | us <;> rw [hd1] at h
      · exact absurd h (by simp)
      · replace h : (match dedupPyE r0.2 with
            | Except.error e => Except.error e
            | Except.ok gs => Except.ok (us, gs)) = Except.ok r := h
        rcases hd2 : dedupPyE r0.2 with e | gs <;> rw [hd2] at h
        · exact absurd h (by simp)
        · have hus := dedupPyE_ok_elim hd1
          have hgs := dedupPyE_ok_elim hd2
          subst hus
          subst hgs
          simp only [Except.ok.injEq] at h
          rw [← h]
          exact ⟨dedupPy_pairwise _, dedupPy_pairwise _⟩

/-- Witness for C9: two records granting the same user yield a
`user_ids` collection of size 1. -/
theorem c9_dedup_witness :
    ([.str "u1".toList] : List PyVal).Pairwise (fun a b => pyEq a b = false) ∧
      ([] : List PyVal).Pairwise (fun a b => pyEq a b = false) :=
  c9_dedup (.list
    [.dict [("grantedToV2".toList, .dict [("user".toList,
        .dict [("id".toList, .str "u1".toList)])])],
     .dict [("grantedToV2".toList, .dict [("user".toList,
        .dict [("id".toList, .str "u1".toList)])])]])
    ([.str "u1".toList], []) rfl

/-- Witness for C5: a delimiter-free eight-character paragraph with
`chunk_size = 5` becomes one oversized unit carried whole into a chunk. -/
theorem c5_oversized_unit_whole_witness :
    ∃ ch ∈ (TextChunker.init 5 2).split_text "abcdefgh".toList Option.none,
      SubSeg "abcdefgh。".toList ch.text ∧
        ((TextChunker.init 5 2).chunk_size : Int) < (ch.text.length : Int) :=
  c5_oversized_unit_whole (TextChunker.init 5 2) Option.none
    "abcdefgh".toList "abcdefgh".toList "abcdefgh。".toList
    (by decide) (by decide) (by decide) (by decide)

/-- Witness for C7: whitespace-only input gives the empty sequence, and a
concrete two-paragraph input carries indices `0 … n-1`. -/
theorem c7_gapless_indices_witness :
    (TextChunker.init 1000 200).split_text "  ".toList Option.none = [] ∧
      ((TextChunker.init 5 0).split_text "ab\n\ncd".toList Option.none).map
          (·.chunk_index) =
        List.range ((TextChunker.init 5 0).split_text "ab\n\ncd".toList
          Option.none).length :=
  ⟨(c7_gapless_indices (TextChunker.init 1000 200) Option.none
      "  ".toList).2 (by decide),
    (c7_gapless_indices (TextChunker.init 5 0) Option.none "ab\n\ncd".toList).1⟩
